import Mathlib

/-!
Verification of the LaTeX → Word math conversion core.

The development shallowly embeds the three algorithmic components of the
repository:

* `parseLatexToDocx` and its helpers (the cursor-based LaTeX parser that
  emits docx math builder objects, plus the postfix script-marker
  reduction pass);
* the `OmmlVisitor` class (MathML-tree → OMML markup string serializer);
* the MathML-ingestion functions `toComponents` / `seqToComponents` /
  `nodeToComponents` (MathML tree → typed docx math components, with
  large-operator glyph folding).

Strings are modelled as `List Char` with an explicit cursor replaced by
consume-style recursion (the source cursor only moves forward and all
reads are at the cursor).  The source functions are recursive with
input-controlled depth and no explicit bound, so every embedded function
takes a fuel argument and recursion is structural on the fuel; top-level
wrappers supply fuel that is amply sufficient (the source call depth is
linear in the input length).  No function in the embedded source can
throw: every result type is a plain value, mirroring the fact that the
source contains no `throw` and no error channel.
-/

namespace LatexToWord

/-- JS `/\s/` test used by `skipWhitespace` (the source regex also accepts
some exotic Unicode spaces; the core ASCII whitespace behaviour is
identical). -/
def isWs (c : Char) : Bool := c.isWhitespace

/-- `skipWhitespace` of the source: advance the cursor past whitespace. -/
def skipWhitespace (l : List Char) : List Char := l.dropWhile isWs

/-- The docx math objects built by `parseLatexToDocx`, together with the
two transient script-marker records `{ type: "sup" | "sub", children }`
that the first pass emits and the reduction pass consumes.

`MathSuperScript({ children: [prev], superScript })` stores a one-element
base array whose element may be JS `undefined` (when `finalResults.pop()`
returned `undefined`); that possibly-undefined single base slot is
modelled as `Option PNode`.  `MathSum` / `MathIntegral` accept optional
`subScript` / `superScript` arguments (used on the MathML-ingestion path)
which `parseLatexToDocx` never passes. `MathSubSuperScript` is imported
by the source file but never constructed by it. -/
inductive PNode where
  | run (text : String)
  | fraction (numerator denominator : List PNode)
  | radical (degree : Option (List PNode)) (children : List PNode)
  | sum (subLimit supLimit : Option (List PNode)) (children : List PNode)
  | integral (subLimit supLimit : Option (List PNode)) (children : List PNode)
  | supMarker (children : List PNode)
  | subMarker (children : List PNode)
  | superscript (base : Option PNode) (script : List PNode)
  | subscript (base : Option PNode) (script : List PNode)
  | subsuperscript (base : Option PNode) (sub sup : List PNode)
  deriving Repr

mutual

/-- `parseNext` of `parseLatexToDocx`: parse one token at the cursor. -/
def parseNext : Nat → List Char → List PNode × List Char
  | 0, l => ([], l)
  | f+1, l =>
    let l := skipWhitespace l
    match l with
    | [] => ([], [])
    | c :: rest =>
      if c = '\\' then
        let letters := rest.takeWhile Char.isAlpha
        let rest' := rest.dropWhile Char.isAlpha
        let command := String.mk ('\\' :: letters)
        if command = "\\frac" then
          let pn := parseGroup f rest'
          let pd := parseGroup f pn.2
          ([.fraction pn.1 pd.1], pd.2)
        else if command = "\\sqrt" then
          let r := skipWhitespace rest'
          match r with
          | '[' :: r1 =>
            let pdeg := parseDegreeLoop f r1
            let pb := parseGroup f (pdeg.2.drop 1)
            ([.radical (some pdeg.1) pb.1], pb.2)
          | _ =>
            let pb := parseGroup f r
            ([.radical none pb.1], pb.2)
        else if command = "\\sum" then ([.sum none none []], rest')
        else if command = "\\int" then ([.integral none none []], rest')
        else ([.run command], rest')
      else if c = '^' then
        let p := parseGroup f rest
        ([.supMarker p.1], p.2)
      else if c = '_' then
        let p := parseGroup f rest
        ([.subMarker p.1], p.2)
      else if c = '{' then parseGroup f l
      else if c = '}' then ([], rest)
      else ([.run (String.mk [c])], rest)

/-- `parseGroup` of the source: parse `{...}` and return its children,
otherwise delegate to `parseNext`.  After the loop the source does
`cursor++` to skip the `}` (a no-op past end of input), modelled by
`List.drop 1`. -/
def parseGroup : Nat → List Char → List PNode × List Char
  | 0, l => ([], l)
  | f+1, l =>
    let l := skipWhitespace l
    match l with
    | [] => ([], [])
    | '{' :: rest =>
      let p := parseGroupLoop f rest
      (p.1, p.2.drop 1)
    | l => parseNext f l

/-- The `while (cursor < latex.length && latex[cursor] !== "}")` loop
inside `parseGroup`. -/
def parseGroupLoop : Nat → List Char → List PNode × List Char
  | 0, l => ([], l)
  | _+1, [] => ([], [])
  | f+1, c :: rest =>
    if c = '}' then ([], c :: rest)
    else
      let p := parseNext f (c :: rest)
      let q := parseGroupLoop f p.2
      (p.1 ++ q.1, q.2)

/-- The `while (cursor < latex.length && latex[cursor] !== "]")` loop
that collects the optional `\sqrt` degree argument. -/
def parseDegreeLoop : Nat → List Char → List PNode × List Char
  | 0, l => ([], l)
  | _+1, [] => ([], [])
  | f+1, c :: rest =>
    if c = ']' then ([], c :: rest)
    else
      let p := parseNext f (c :: rest)
      let q := parseDegreeLoop f p.2
      (p.1 ++ q.1, q.2)

end

/-- The top-level `while (cursor < latex.length) results.push(...parseNext())`
loop of `parseLatexToDocx`. -/
def parseLoop : Nat → List Char → List PNode
  | 0, _ => []
  | _+1, [] => []
  | f+1, c :: rest =>
    let p := parseNext f (c :: rest)
    p.1 ++ parseLoop f p.2

/-- One step of the post-processing loop (source lines
`for (let i = 0; i < results.length; i++) ...`): the accumulator models
`finalResults` with the most recently pushed node first.  On a marker the
source pops the previous node; when the pop yields `undefined` it pushes
`new MathRun("")` and then still builds the script node over the
undefined `prev`. -/
def attachStep (acc : List PNode) (curr : PNode) : List PNode :=
  match curr with
  | .supMarker cs =>
    match acc with
    | [] => [.superscript none cs, .run ""]
    | prev :: rest => .superscript (some prev) cs :: rest
  | .subMarker cs =>
    match acc with
    | [] => [.subscript none cs, .run ""]
    | prev :: rest => .subscript (some prev) cs :: rest
  | _ => curr :: acc

/-- The full post-processing pass that attaches pending script markers to
the preceding sibling. -/
def attachScripts (results : List PNode) : List PNode :=
  (results.foldl attachStep []).reverse

/-- `parseLatexToDocx`: first pass then reduction pass.  The fuel
`4 * length + 8` strictly dominates the source's recursion depth, which
is linear in the input length (every recursive call consumes at least
one character per constant number of nested calls). -/
def parseLatexToDocx (latex : String) : List PNode :=
  attachScripts (parseLoop (4 * latex.length + 8) latex.data)

/-- `n` nested brace groups around the letter `x`: the input
`{{...{x}...}}`.  Used to analyse the parser's behaviour on
input-controlled nesting depth. -/
def nestL : Nat → List Char
  | 0 => ['x']
  | n+1 => '{' :: (nestL n ++ ['}'])

/-- `nestL` as a string. -/
def nestStr (n : Nat) : String := String.mk (nestL n)

/-- Every `MathSum` / `MathIntegral` in the tree was constructed bare:
empty operand list and no `subScript` / `superScript` arguments (the
shape `new MathSum({ children: [] })` of the source). -/
inductive LargeOpsBare : PNode → Prop where
  | run (s : String) : LargeOpsBare (.run s)
  | fraction (n d : List PNode) :
      (∀ x ∈ n, LargeOpsBare x) → (∀ x ∈ d, LargeOpsBare x) →
      LargeOpsBare (.fraction n d)
  | radical (deg : Option (List PNode)) (cs : List PNode) :
      (∀ ds ∈ deg, ∀ x ∈ ds, LargeOpsBare x) → (∀ x ∈ cs, LargeOpsBare x) →
      LargeOpsBare (.radical deg cs)
  | sum : LargeOpsBare (.sum none none [])
  | integral : LargeOpsBare (.integral none none [])
  | supMarker (cs : List PNode) :
      (∀ x ∈ cs, LargeOpsBare x) → LargeOpsBare (.supMarker cs)
  | subMarker (cs : List PNode) :
      (∀ x ∈ cs, LargeOpsBare x) → LargeOpsBare (.subMarker cs)
  | superscript (b : Option PNode) (s : List PNode) :
      (∀ x ∈ b, LargeOpsBare x) → (∀ x ∈ s, LargeOpsBare x) →
      LargeOpsBare (.superscript b s)
  | subscript (b : Option PNode) (s : List PNode) :
      (∀ x ∈ b, LargeOpsBare x) → (∀ x ∈ s, LargeOpsBare x) →
      LargeOpsBare (.subscript b s)
  | subsuperscript (b : Option PNode) (s1 s2 : List PNode) :
      (∀ x ∈ b, LargeOpsBare x) → (∀ x ∈ s1, LargeOpsBare x) →
      (∀ x ∈ s2, LargeOpsBare x) → LargeOpsBare (.subsuperscript b s1 s2)

/-! ### The `OmmlVisitor` serializer (src/lib/omml-visitor.ts)

A MathJax internal-format tree (`MmlNode`): element nodes carry a `kind`
string and child nodes; text nodes carry the literal text.  The visitor
dispatches on `"visit" + capitalize(kind)`; the fuel models recursion
depth (one unit per tree level; the source recursion depth is the tree
height, so any fuel of at least the height gives the source behaviour). -/

inductive MjNode where
  | text (s : String)
  | el (kind : String) (children : List MjNode)
  deriving Repr

/-- Concatenation of a list of strings (the `result += ...` loop of
`visitChildren`). -/
def strConcat : List String → String
  | [] => ""
  | s :: ss => s ++ strConcat ss

/-- `node.childNodes[i]`.  The source would crash on an out-of-range
access (`undefined.kind`); the handlers below only read children that
exist for well-formed MathML arities, so the default is never reached in
any theorem. -/
def mjChild (cs : List MjNode) (i : Nat) : MjNode := cs.getD i (.el "" [])

/-- `getText` of the visitor: the text of the first child when it is a
text node, `""` otherwise. -/
def getText : MjNode → String
  | .el _ (.text s :: _) => s
  | _ => ""

/-- `createRun` of the visitor.  Its `style` argument is accepted and
ignored, exactly as in the source (`// For simplicity, we just return
m:r > m:t`). -/
def createRun (style text : String) : String :=
  "<m:r><m:t>" ++ text ++ "</m:t></m:r>"

/-- `OmmlVisitor.visitNode`: dispatch on the node kind; a kind with a
`visitX` handler runs it, any other kind falls back to `visitChildren`
(recurse and concatenate).  The JS property lookup would also hit the
visitor-infrastructure methods themselves for the artificial kinds
`"node"`, `"tree"`, `"children"` and the base-class `"textNode"` /
`"xMLNode"` (none of which a MathML producer emits); those kinds are not
modelled and are excluded from the theorems that quantify over kinds. -/
def visitNode : Nat → MjNode → String
  | 0, _ => ""
  | _+1, .text _ => ""
  | f+1, .el kind cs =>
    if kind = "math" then
      "<m:oMath xmlns:m=\"http://schemas.openxmlformats.org/officeDocument/2006/math\">"
        ++ strConcat (cs.map (visitNode f)) ++ "</m:oMath>"
    else if kind = "mfrac" then
      "<m:f><m:num>" ++ visitNode f (mjChild cs 0) ++ "</m:num><m:den>"
        ++ visitNode f (mjChild cs 1) ++ "</m:den></m:f>"
    else if kind = "msqrt" then
      "<m:rad><m:radPr><m:degHide m:val=\"on\"/></m:radPr><m:e>"
        ++ strConcat (cs.map (visitNode f)) ++ "</m:e></m:rad>"
    else if kind = "mroot" then
      "<m:rad><m:deg>" ++ visitNode f (mjChild cs 1) ++ "</m:deg><m:e>"
        ++ visitNode f (mjChild cs 0) ++ "</m:e></m:rad>"
    else if kind = "msup" then
      "<m:sSup><m:e>" ++ visitNode f (mjChild cs 0) ++ "</m:e><m:sup>"
        ++ visitNode f (mjChild cs 1) ++ "</m:sup></m:sSup>"
    else if kind = "msub" then
      "<m:sSub><m:e>" ++ visitNode f (mjChild cs 0) ++ "</m:e><m:sub>"
        ++ visitNode f (mjChild cs 1) ++ "</m:sub></m:sSub>"
    else if kind = "msubsup" then
      "<m:sSubSup><m:e>" ++ visitNode f (mjChild cs 0) ++ "</m:e><m:sub>"
        ++ visitNode f (mjChild cs 1) ++ "</m:sub><m:sup>"
        ++ visitNode f (mjChild cs 2) ++ "</m:sup></m:sSubSup>"
    else if kind = "mi" then createRun "math" (getText (.el kind cs))
    else if kind = "mn" then createRun "norm" (getText (.el kind cs))
    else if kind = "mo" then createRun "math" (getText (.el kind cs))
    else if kind = "mtext" then createRun "norm" (getText (.el kind cs))
    else if kind = "mspace" then ""
    else if kind = "mrow" then strConcat (cs.map (visitNode f))
    else if kind = "mstyle" then strConcat (cs.map (visitNode f))
    else if kind = "munderover" then
      "<m:nary><m:naryPr><m:limLoc m:val=\"undOvr\"/></m:naryPr><m:sub>"
        ++ visitNode f (mjChild cs 1) ++ "</m:sub><m:sup>"
        ++ visitNode f (mjChild cs 2) ++ "</m:sup><m:e>"
        ++ visitNode f (mjChild cs 0) ++ "</m:e></m:nary>"
    else if kind = "munder" then
      "<m:nary><m:naryPr><m:limLoc m:val=\"undOvr\"/><m:supHide m:val=\"on\"/></m:naryPr><m:sub>"
        ++ visitNode f (mjChild cs 1) ++ "</m:sub><m:sup></m:sup><m:e>"
        ++ visitNode f (mjChild cs 0) ++ "</m:e></m:nary>"
    else if kind = "mover" then
      "<m:nary><m:naryPr><m:limLoc m:val=\"undOvr\"/><m:subHide m:val=\"on\"/></m:naryPr><m:sub></m:sub><m:sup>"
        ++ visitNode f (mjChild cs 1) ++ "</m:sup><m:e>"
        ++ visitNode f (mjChild cs 0) ++ "</m:e></m:nary>"
    else strConcat (cs.map (visitNode f))

/-- `OmmlVisitor.visitChildren`: visit every child in order and
concatenate the results. -/
def visitChildren (f : Nat) (cs : List MjNode) : String :=
  strConcat (cs.map (visitNode f))

/-- The node kinds for which `OmmlVisitor` has a dedicated `visitX`
handler. -/
def ommlHandledKinds : List String :=
  ["math", "mfrac", "msqrt", "mroot", "msup", "msub", "msubsup",
   "mi", "mn", "mo", "mtext", "mspace", "mrow", "mstyle",
   "munderover", "munder", "mover"]

/-- MathML node kinds produced by the upstream renderer for which the
visitor has no dedicated handler (the names are all lowercase MathML
kinds, so the JS `"visit" + capitalize(kind)` lookup genuinely misses
for every one of them and the default path runs). -/
def unhandledMathmlKinds : List String :=
  ["merror", "mpadded", "mphantom", "mfenced", "menclose", "ms",
   "mmultiscripts", "mprescripts", "none", "mtable", "mtr",
   "mlabeledtr", "mtd", "maligngroup", "malignmark", "mglyph",
   "semantics", "maction", "inferredMrow"]

/-! ### The MathML ingestion path (`toComponents` and friends)

The `MathmlNode` record type of the source (`{ name, children, text? }`
as produced by the XML parser) and the conversion to typed docx math
components, including the large-operator glyph folding across
siblings. -/

inductive MmNode where
  | mk (name : String) (children : List MmNode) (text : Option String)
  deriving Repr

/-- `node.name`. -/
def MmNode.name : MmNode → String
  | .mk n _ _ => n

/-- `node.children`. -/
def MmNode.children : MmNode → List MmNode
  | .mk _ cs _ => cs

/-- `node.text` (absent modelled as `none`). -/
def MmNode.text : MmNode → Option String
  | .mk _ _ t => t

/-- The typed docx math components constructed by this path
(`MathComponent` values).  `MathSuperScript({children, superScript})`
and friends take the base as a child list here; `MathSum` /
`MathIntegral` take optional `subScript` / `superScript` limits. -/
inductive CNode where
  | run (text : String)
  | fraction (numerator denominator : List CNode)
  | radical (children : List CNode) (degree : Option (List CNode))
  | superscript (children sup : List CNode)
  | subscript (children sub : List CNode)
  | subsuperscript (children sub sup : List CNode)
  | sum (children : List CNode) (sub sup : Option (List CNode))
  | integral (children : List CNode) (sub sup : Option (List CNode))
  deriving Repr

mutual

/-- `getMathmlText`: `#text` nodes yield their text; a node with a
(non-empty — JS truthiness) `text` field yields it; otherwise the
concatenation of the children's texts. -/
def getMathmlText : Nat → MmNode → String
  | 0, _ => ""
  | f+1, .mk nm cs txt =>
    if nm = "#text" then txt.getD ""
    else
      match txt with
      | some t => if t = "" then getMathmlTextList f cs else t
      | none => getMathmlTextList f cs
termination_by structural f _ => f

/-- `node.children.map(getMathmlText).join("")`. -/
def getMathmlTextList : Nat → List MmNode → String
  | 0, _ => ""
  | _+1, [] => ""
  | f+1, c :: cs => getMathmlText f c ++ getMathmlTextList f cs
termination_by structural f _ => f

end

/-- JS `s.includes(c)` for a single-character needle: the character
occurs in the string. -/
def strIncludes (s : String) (c : Char) : Bool := s.data.contains c

/-- JS `.trim()`: strip whitespace from both ends (equivalent to
`String.trim`, re-implemented on the character list so it reduces). -/
def strTrim (s : String) : String :=
  String.mk (((s.data.dropWhile isWs).reverse.dropWhile isWs).reverse)

/-- `.replace(/\s+/g, " ")`: collapse every maximal whitespace run to a
single space.  The `Bool` argument records whether the previous
character was part of a whitespace run. -/
def collapseWsAux : List Char → Bool → List Char
  | [], _ => []
  | c :: cs, prev =>
    if isWs c then
      if prev then collapseWsAux cs true else ' ' :: collapseWsAux cs true
    else c :: collapseWsAux cs false

/-- `.replace(/\s+/g, " ")` on a string. -/
def collapseWs (s : String) : String := String.mk (collapseWsAux s.data false)

/-- `.replace(/\s+/g, " ").trim()` — the token-text normalization. -/
def normalizeText (s : String) : String := strTrim (collapseWs s)

mutual

/-- `toComponents`: grouping wrappers flatten into the sibling
sequence; everything else goes through `nodeToComponents`. -/
def toComponents : Nat → MmNode → List CNode
  | 0, _ => []
  | f+1, node =>
    if node.name = "math" ∨ node.name = "mrow" ∨ node.name = "mstyle" then
      seqToComponents f node.children
    else nodeToComponents f node
termination_by structural f _ => f

/-- `seqToComponents`: walk a sibling list; an
`munderover`/`munder`/`mover` element whose base text (trimmed) contains
`∑` (U+2211) or `∫` (U+222B) is folded with the immediately following
sibling (when one exists) into a `MathSum` / `MathIntegral`, consuming
both; the decorated element's second child (if any) becomes the
`subScript` and its third child (if any) the `superScript`. -/
def seqToComponents : Nat → List MmNode → List CNode
  | 0, _ => []
  | _+1, [] => []
  | f+1, node :: rest =>
    if node.name = "munderover" ∨ node.name = "munder" ∨ node.name = "mover" then
      let baseText :=
        match node.children.get? 0 with
        | some b => strTrim (getMathmlText f b)
        | none => ""
      let subScr :=
        match node.children.get? 1 with
        | some u => some (toComponents f u)
        | none => none
      let supScr :=
        match node.children.get? 2 with
        | some o => some (toComponents f o)
        | none => none
      match rest with
      | next :: rest2 =>
        if strIncludes baseText '∑' then
          CNode.sum (toComponents f next) subScr supScr :: seqToComponents f rest2
        else if strIncludes baseText '∫' then
          CNode.integral (toComponents f next) subScr supScr :: seqToComponents f rest2
        else nodeToComponents f node ++ seqToComponents f (next :: rest2)
      | [] => nodeToComponents f node ++ seqToComponents f ([] : List MmNode)
    else nodeToComponents f node ++ seqToComponents f rest
termination_by structural f _ => f

/-- `nodeToComponents`: the per-element mapping rules. -/
def nodeToComponents : Nat → MmNode → List CNode
  | 0, _ => []
  | f+1, node =>
    if node.name = "math" ∨ node.name = "mrow" ∨ node.name = "mstyle" then
      seqToComponents f node.children
    else if node.name = "mi" ∨ node.name = "mn" ∨ node.name = "mo" ∨ node.name = "mtext" then
      let text := normalizeText (getMathmlText f node)
      if text = "" then [] else [CNode.run text]
    else if node.name = "mspace" then []
    else if node.name = "mfrac" then
      let numerator :=
        match node.children.get? 0 with
        | some c => toComponents f c
        | none => []
      let denominator :=
        match node.children.get? 1 with
        | some c => toComponents f c
        | none => []
      [CNode.fraction numerator denominator]
    else if node.name = "msqrt" then
      [CNode.radical (seqToComponents f node.children) none]
    else if node.name = "mroot" then
      let base :=
        match node.children.get? 0 with
        | some c => toComponents f c
        | none => []
      let degree :=
        match node.children.get? 1 with
        | some c => toComponents f c
        | none => []
      [CNode.radical base (some degree)]
    else if node.name = "msup" then
      let base :=
        match node.children.get? 0 with
        | some c => toComponents f c
        | none => []
      let sup :=
        match node.children.get? 1 with
        | some c => toComponents f c
        | none => []
      [CNode.superscript base sup]
    else if node.name = "msub" then
      let base :=
        match node.children.get? 0 with
        | some c => toComponents f c
        | none => []
      let sub :=
        match node.children.get? 1 with
        | some c => toComponents f c
        | none => []
      [CNode.subscript base sub]
    else if node.name = "msubsup" then
      let base :=
        match node.children.get? 0 with
        | some c => toComponents f c
        | none => []
      let sub :=
        match node.children.get? 1 with
        | some c => toComponents f c
        | none => []
      let sup :=
        match node.children.get? 2 with
        | some c => toComponents f c
        | none => []
      [CNode.subsuperscript base sub sup]
    else if node.name = "mfenced" then seqToComponents f node.children
    else if node.children.isEmpty = false then seqToComponents f node.children
    else
      let text := normalizeText (getMathmlText f node)
      if text = "" then [] else [CNode.run text]
termination_by structural f _ => f

end

/-- The trimmed flattened text of a decorated element's base
(`baseText` in `seqToComponents`). -/
def decoBaseText (f : Nat) (node : MmNode) : String :=
  match node.children.get? 0 with
  | some b => strTrim (getMathmlText f b)
  | none => ""

/-- The `subScript` argument a fold passes: the element's second child,
when present (`underNode` in the source — even for `mover`, whose
second child is actually its over decoration). -/
def decoSubScr (f : Nat) (node : MmNode) : Option (List CNode) :=
  match node.children.get? 1 with
  | some u => some (toComponents f u)
  | none => none

/-- The `superScript` argument a fold passes: the element's third
child, when present. -/
def decoSupScr (f : Nat) (node : MmNode) : Option (List CNode) :=
  match node.children.get? 2 with
  | some o => some (toComponents f o)
  | none => none

/-! ### `Row` flattening (claim C8)

Trees that consist of token leaves nested inside arbitrarily many `Row`
(`mrow`) wrappers, in order, on each of the two serializer front
ends. -/

/-- The leaf token element kinds shared by both paths. -/
def leafKinds : List String := ["mi", "mn", "mo", "mtext"]

/-- A token leaf on the MathJax / `OmmlVisitor` path: an element holding
one text node. -/
def mjLeaf (k s : String) : MjNode := .el k [.text s]

/-- A token leaf on the MathML-ingestion path: an element with its text
in the `text` field. -/
def mmLeaf (k s : String) : MmNode := .mk k [] (some s)

/-- `RowForestA ns ls`: the sibling list `ns` consists of token leaves
and (arbitrarily nested) `mrow` wrappers whose in-order leaf sequence is
`ls` (kind, text). -/
inductive RowForestA : List MjNode → List (String × String) → Prop where
  | nil : RowForestA [] []
  | leaf (k s : String) (rest : List MjNode) (ls : List (String × String))
      (hk : k ∈ leafKinds) (h : RowForestA rest ls) :
      RowForestA (mjLeaf k s :: rest) ((k, s) :: ls)
  | row (cs rest : List MjNode) (ls ls' : List (String × String))
      (h1 : RowForestA cs ls) (h2 : RowForestA rest ls') :
      RowForestA (.el "mrow" cs :: rest) (ls ++ ls')

/-- `RowForestB`: the same shape on the MathML-ingestion node type. -/
inductive RowForestB : List MmNode → List (String × String) → Prop where
  | nil : RowForestB [] []
  | leaf (k s : String) (rest : List MmNode) (ls : List (String × String))
      (hk : k ∈ leafKinds) (h : RowForestB rest ls) :
      RowForestB (mmLeaf k s :: rest) ((k, s) :: ls)
  | row (cs rest : List MmNode) (ls ls' : List (String × String))
      (h1 : RowForestB cs ls) (h2 : RowForestB rest ls') :
      RowForestB (MmNode.mk "mrow" cs none :: rest) (ls ++ ls')

/-- The single flat `Row` over the leaf sequence, path A. -/
def flatRowA (ls : List (String × String)) : MjNode :=
  .el "mrow" (ls.map fun p => mjLeaf p.1 p.2)

/-- The single flat `Row` over the leaf sequence, path B. -/
def flatRowB (ls : List (String × String)) : MmNode :=
  .mk "mrow" (ls.map fun p => mmLeaf p.1 p.2) none

/-- What one leaf emits on the `OmmlVisitor` path (all four token
handlers emit the same `createRun` wrapper, whose style argument is
ignored). -/
def leafRunA (p : String × String) : String :=
  "<m:r><m:t>" ++ p.2 ++ "</m:t></m:r>"

/-- What one leaf contributes on the ingestion path. -/
def leafCompB (p : String × String) : List CNode :=
  if normalizeText p.2 = "" then [] else [CNode.run (normalizeText p.2)]

/-- `List.flatMap` written out (kept first-order for easy induction). -/
def catMap (g : α → List β) : List α → List β
  | [] => []
  | a :: as => g a ++ catMap g as

end LatexToWord

namespace LatexToWord

/-! ## Claim C1 — script binding order

The reduction pass never merges a sub marker and a sup marker into one
`MathSubSuperScript` (the source only muses about it in a comment); each
marker wraps the previous node singly, so `x^2_3` and `x_3^2` produce
different nested trees. -/

/-- C1 (counterexample): the two inputs `x^2_3` and `x_3^2` do not
produce the identical tree, contradicting the claimed order-independent
normalization into one `SubSuperScript`. -/
theorem C1_order_dependent_counterexample :
    parseLatexToDocx "x^2_3" ≠ parseLatexToDocx "x_3^2" := by
  have h1 : parseLatexToDocx "x^2_3" =
      [.subscript (some (.superscript (some (.run "x")) [.run "2"])) [.run "3"]] := rfl
  have h2 : parseLatexToDocx "x_3^2" =
      [.superscript (some (.subscript (some (.run "x")) [.run "3"])) [.run "2"]] := rfl
  rw [h1, h2]
  simp

/-- C1 (amended): each pending script marker wraps the immediately
preceding node in a single-script node, so `x^2_3` yields
`SubScript(SuperScript(x, 2), 3)` while `x_3^2` yields
`SuperScript(SubScript(x, 3), 2)`; no `SubSuperScript` is formed. -/
theorem C1_nested_single_scripts :
    parseLatexToDocx "x^2_3" =
      [.subscript (some (.superscript (some (.run "x")) [.run "2"])) [.run "3"]] ∧
    parseLatexToDocx "x_3^2" =
      [.superscript (some (.subscript (some (.run "x")) [.run "3"])) [.run "2"]] :=
  ⟨rfl, rfl⟩

/-! ## Claim C2 — unmatched opening brace

The parser has no failure channel at all: `parseGroup`'s scan loop simply
stops at end of input, so an unclosed group behaves exactly as if the
brace were closed at the end of the string, and a tree is returned. -/

/-- C2 (counterexample): on the input `{x` — an unmatched opening brace
at end of input — the parser returns a tree (the same one as for the
closed input), not a `ParseError`; no error value exists anywhere in the
source's result type. -/
theorem C2_unmatched_brace_counterexample :
    parseLatexToDocx "\x7bx" = [.run "x"] :=
  rfl

/-- C2 (amended): no input is a hard parse failure.  The source never
throws; an unmatched opening brace at end of input is silently treated
as a group closed at end of input, as the concrete equalities
`parse "{x" = parse "{x}"` and `parse "\frac{a}{b" = Fraction(a, b)`
show. -/
theorem C2_parser_total :
    parseLatexToDocx "\x7bx" = parseLatexToDocx "\x7bx\x7d" ∧
    parseLatexToDocx "\\frac\x7ba\x7d\x7bb" = [.fraction [.run "a"] [.run "b"]] :=
  ⟨rfl, rfl⟩

/-! ## Claim C3 — leading bare script

The source intends (`// Empty base` comment, and the spec) to bind a
script marker with no preceding sibling to an empty `Run` base.  The
code pops `prev` (getting `undefined`), pushes the empty `MathRun("")`
into the result list, but then still constructs
`MathSuperScript({ children: [prev], ... })` over the undefined `prev`.
The result is **two** nodes — a stray empty run, followed by a
superscript whose base slot is undefined (`none`) — not one superscript
based on the empty run. -/

/-- C3 (code bug): for the input `^2` the parser returns two nodes, the
detached empty run and a superscript with an undefined base, instead of
the single `Superscript(base = empty Run, sup = 2)` the spec states. -/
theorem C3_leading_script_bug :
    parseLatexToDocx "^2" = [.run "", .superscript none [.run "2"]] :=
  rfl

end LatexToWord

namespace LatexToWord

/-! ## Claim C5 — nesting depth

Helper lemmas showing the parser handles arbitrarily deep brace nesting
with no depth cut-off (recursion is bounded only by the fuel, which the
wrapper sets proportional to the input length). -/

lemma parseNext_default_x (f : Nat) (rest : List Char) :
    parseNext (f+1) ('x' :: rest) = ([.run "x"], rest) := rfl

lemma parseNext_openBrace (f : Nat) (l : List Char) :
    parseNext (f+1) ('{' :: l) = parseGroup f ('{' :: l) := rfl

lemma parseGroup_openBrace (f : Nat) (l : List Char) :
    parseGroup (f+1) ('{' :: l) =
      ((parseGroupLoop f l).1, (parseGroupLoop f l).2.drop 1) := rfl

lemma parseGroupLoop_closeBrace (f : Nat) (l : List Char) :
    parseGroupLoop (f+1) ('}' :: l) = ([], '}' :: l) := rfl

lemma parseGroupLoop_step (f : Nat) (c : Char) (l : List Char) (h : ¬ c = '}') :
    parseGroupLoop (f+1) (c :: l) =
      ((parseNext f (c :: l)).1 ++ (parseGroupLoop f (parseNext f (c :: l)).2).1,
        (parseGroupLoop f (parseNext f (c :: l)).2).2) := by
  simp only [parseGroupLoop, if_neg h]

/-- Head shape of a nest: always a nonempty list not starting with `}`. -/
lemma nestL_shape (n : Nat) : ∃ c t, nestL n = c :: t ∧ c ≠ '}' := by
  cases n with
  | zero => exact ⟨'x', [], rfl, by decide⟩
  | succ n => exact ⟨'{', nestL n ++ ['}'], rfl, by decide⟩

/-- Arbitrarily deep nesting parses to the single run `x` whenever the
fuel is at least `3 n + 1` — there is no depth cut-off in the source. -/
lemma parseNext_nest (n : Nat) : ∀ f rest, 3*n+1 ≤ f →
    parseNext f (nestL n ++ rest) = ([.run "x"], rest) := by
  induction n with
  | zero =>
    intro f rest hf
    obtain ⟨f', rfl⟩ : ∃ f', f = f'+1 := ⟨f-1, by omega⟩
    exact parseNext_default_x f' rest
  | succ n ih =>
    intro f rest hf
    obtain ⟨f', rfl⟩ : ∃ f', f = f'+1 := ⟨f-1, by omega⟩
    obtain ⟨f'', rfl⟩ : ∃ f'', f' = f''+1 := ⟨f'-1, by omega⟩
    obtain ⟨g, rfl⟩ : ∃ g, f'' = g+1 := ⟨f''-1, by omega⟩
    have hl : (nestL (n+1)) ++ rest = '{' :: (nestL n ++ ('}' :: rest)) := by
      simp [nestL]
    rw [hl, parseNext_openBrace, parseGroup_openBrace]
    obtain ⟨c, t, hct, hc⟩ := nestL_shape n
    rw [show nestL n ++ ('}' :: rest) = c :: (t ++ ('}' :: rest)) by rw [hct]; simp]
    rw [parseGroupLoop_step _ _ _ hc]
    rw [show c :: (t ++ ('}' :: rest)) = nestL n ++ ('}' :: rest) by rw [hct]; simp]
    rw [ih g ('}' :: rest) (by omega)]
    obtain ⟨g', rfl⟩ : ∃ g', g = g'+1 := ⟨g-1, by omega⟩
    rw [parseGroupLoop_closeBrace]
    simp

lemma parseLoop_nil (f : Nat) : parseLoop f [] = [] := by
  cases f <;> rfl

lemma nestL_length (n : Nat) : (nestL n).length = 2*n + 1 := by
  induction n with
  | zero => rfl
  | succ n ih => simp [nestL, ih]; omega

/-- The full parser on the `n`-deep nest. -/
lemma parseLatexToDocx_nest (n : Nat) :
    parseLatexToDocx (nestStr n) = [.run "x"] := by
  have hdata : (nestStr n).data = nestL n := rfl
  have hlen : (nestStr n).length = 2*n + 1 := by
    show (nestStr n).data.length = _
    rw [hdata, nestL_length]
  unfold parseLatexToDocx
  rw [hdata, hlen]
  obtain ⟨c, t, hct, hc⟩ := nestL_shape n
  have h4 : 4 * (2*n+1) + 8 = (8*n + 11) + 1 := by omega
  rw [h4, hct]
  show attachScripts (parseLoop ((8*n+11)+1) (c :: t)) = _
  simp only [parseLoop]
  rw [show c :: t = nestL n ++ [] by rw [hct]; simp]
  rw [parseNext_nest n (8*n+11) [] (by omega)]
  rw [parseLoop_nil]
  rfl


/-- C5 (counterexample): no maximum nesting depth exists.  The claim —
that the parser imposes some bound `D` and fails (stops producing the
normal tree) on every input nested deeper than `D` — is false: nests of
every depth parse to the ordinary one-node tree, and the source has no
error channel that a depth check could even report through. -/
theorem C5_no_depth_limit_counterexample :
    ¬ ∃ D : Nat, ∀ n, n > D → parseLatexToDocx (nestStr n) ≠ [.run "x"] := by
  rintro ⟨D, h⟩
  exact h (D+1) (by omega) (parseLatexToDocx_nest (D+1))

/-- C5 (amended): the pipeline's parsers impose no explicit maximum
nesting depth: brace groups of every nesting depth `n` parse normally
(the recursion of the source is bounded only by the input length, with
no bounded-size error on deep input). -/
theorem C5_unbounded_nesting :
    ∀ n : Nat, parseLatexToDocx (nestStr n) = [.run "x"] :=
  parseLatexToDocx_nest

end LatexToWord

namespace LatexToWord

/-! ## Claim C6 — unrecognized commands degrade to literal runs -/

/-- Dispatch step: a backslash command not in the fixed table falls to
the generic arm `return [new MathRun(command)]`. -/
lemma parseNext_command (f : Nat) (t : List Char)
    (h1 : String.mk ('\\' :: t.takeWhile Char.isAlpha) ≠ "\\frac")
    (h2 : String.mk ('\\' :: t.takeWhile Char.isAlpha) ≠ "\\sqrt")
    (h3 : String.mk ('\\' :: t.takeWhile Char.isAlpha) ≠ "\\sum")
    (h4 : String.mk ('\\' :: t.takeWhile Char.isAlpha) ≠ "\\int") :
    parseNext (f+1) ('\\' :: t) =
      ([.run (String.mk ('\\' :: t.takeWhile Char.isAlpha))], t.dropWhile Char.isAlpha) := by
  simp only [parseNext]
  rw [show skipWhitespace ('\\' :: t) = '\\' :: t from rfl]
  dsimp only
  rw [if_pos rfl, if_neg h1, if_neg h2, if_neg h3, if_neg h4]

/-- C6: every command token (backslash plus the longest letter prefix)
outside the dispatch table `\frac`/`\sqrt`/`\sum`/`\int` yields a
literal run holding the raw command text including the backslash, with
no failure; concretely, `\foo{x}` converts to the run `\foo` followed
by the run `x`. -/
theorem C6_unrecognized_command_run :
    (∀ (f : Nat) (t : List Char),
      String.mk ('\\' :: t.takeWhile Char.isAlpha) ∉
          (["\\frac", "\\sqrt", "\\sum", "\\int"] : List String) →
      parseNext (f+1) ('\\' :: t) =
        ([.run (String.mk ('\\' :: t.takeWhile Char.isAlpha))], t.dropWhile Char.isAlpha)) ∧
    parseLatexToDocx "\\foo{x}" = [.run "\\foo", .run "x"] := by
  refine ⟨fun f t hmem => ?_, rfl⟩
  simp only [List.mem_cons, List.not_mem_nil, or_false, not_or] at hmem
  obtain ⟨h1, h2, h3, h4⟩ := hmem
  exact parseNext_command f t h1 h2 h3 h4

/-- C6 witness: the general statement applied to the concrete
unrecognized command `\foo` in front of `{x}`. -/
theorem C6_unrecognized_command_run_witness :
    parseNext 1 ('\\' :: "foo{x}".data) = ([.run "\\foo"], "{x}".data) := by
  have h := C6_unrecognized_command_run.1 0 "foo{x}".data (by decide)
  exact h

end LatexToWord

namespace LatexToWord

/-! ## Claim C7 — `\sqrt` optional degree and the hidden-degree flag -/

lemma takeWhile_head_false (l : List Char)
    (h : ∀ c, l.head? = some c → c.isAlpha = false) :
    l.takeWhile Char.isAlpha = [] := by
  cases l with
  | nil => rfl
  | cons c t => simp [List.takeWhile_cons, h c rfl]

lemma dropWhile_head_false (l : List Char)
    (h : ∀ c, l.head? = some c → c.isAlpha = false) :
    l.dropWhile Char.isAlpha = l := by
  cases l with
  | nil => rfl
  | cons c t => simp [List.dropWhile_cons, h c rfl]

lemma parseNext_sqrt_nodeg (f : Nat) (l : List Char)
    (hAl : ∀ c, l.head? = some c → c.isAlpha = false)
    (hBr : (skipWhitespace l).head? ≠ some '[') :
    parseNext (f+1) ('\\' :: 's' :: 'q' :: 'r' :: 't' :: l) =
      ([.radical none (parseGroup f (skipWhitespace l)).1],
        (parseGroup f (skipWhitespace l)).2) := by
  have htake : ('s' :: 'q' :: 'r' :: 't' :: l).takeWhile Char.isAlpha =
      's' :: 'q' :: 'r' :: 't' :: [] := by
    simp [List.takeWhile_cons, takeWhile_head_false l hAl,
      show Char.isAlpha 's' = true from rfl, show Char.isAlpha 'q' = true from rfl,
      show Char.isAlpha 'r' = true from rfl, show Char.isAlpha 't' = true from rfl]
  have hdrop : ('s' :: 'q' :: 'r' :: 't' :: l).dropWhile Char.isAlpha = l := by
    simp [List.dropWhile_cons, dropWhile_head_false l hAl,
      show Char.isAlpha 's' = true from rfl, show Char.isAlpha 'q' = true from rfl,
      show Char.isAlpha 'r' = true from rfl, show Char.isAlpha 't' = true from rfl]
  simp only [parseNext]
  rw [show skipWhitespace ('\\' :: 's' :: 'q' :: 'r' :: 't' :: l) =
      '\\' :: 's' :: 'q' :: 'r' :: 't' :: l from rfl]
  dsimp only
  rw [if_pos rfl, htake, hdrop]
  rw [if_neg (by decide), if_pos (by decide)]
  split
  · next r1 heq =>
    exact absurd (by rw [heq]; rfl) hBr
  · rfl


/-- C7: `\sqrt` consumes an optional bracket-delimited degree argument
immediately after the command (after whitespace), before its mandatory
body group: `\sqrt[3]{x}` gives `Radical(degree = 3, body = x)`; when
the next non-space character is not `[` (for any following input) the
radical is built with no degree, as in `\sqrt{x}`.  The serializer
emits the hidden-degree flag `m:degHide` exactly when the degree is
absent: the degree-less radical element wraps its body with the flag
set, while the degreed one emits a visible `m:deg` wrapper and no
flag. -/
theorem C7_sqrt_degree :
    parseLatexToDocx "\\sqrt[3]{x}" = [.radical (some [.run "3"]) [.run "x"]] ∧
    (∀ (f : Nat) (l : List Char),
      (∀ c, l.head? = some c → c.isAlpha = false) →
      (skipWhitespace l).head? ≠ some '[' →
      parseNext (f+1) ('\\' :: 's' :: 'q' :: 'r' :: 't' :: l) =
        ([.radical none (parseGroup f (skipWhitespace l)).1],
          (parseGroup f (skipWhitespace l)).2)) ∧
    parseLatexToDocx "\\sqrt{x}" = [.radical none [.run "x"]] ∧
    (∀ (f : Nat) (cs : List MjNode),
      visitNode (f+1) (.el "msqrt" cs) =
        "<m:rad><m:radPr><m:degHide m:val=\"on\"/></m:radPr><m:e>"
          ++ visitChildren f cs ++ "</m:e></m:rad>") ∧
    (∀ (f : Nat) (b d : MjNode) (rest : List MjNode),
      visitNode (f+1) (.el "mroot" (b :: d :: rest)) =
        "<m:rad><m:deg>" ++ visitNode f d ++ "</m:deg><m:e>"
          ++ visitNode f b ++ "</m:e></m:rad>") :=
  ⟨rfl, parseNext_sqrt_nodeg, rfl, fun _ _ => rfl, fun _ _ _ _ => rfl⟩

/-- C7 witness: the no-degree branch applied at the concrete input
`\sqrt{x}` (the character after the command is `{`, not `[`). -/
theorem C7_sqrt_degree_witness :
    parseNext 11 ('\\' :: 's' :: 'q' :: 'r' :: 't' :: "{x}".data) =
      ([.radical none [.run "x"]], []) := by
  have h := C7_sqrt_degree.2.1 10 "{x}".data (by decide) (by decide)
  exact h

end LatexToWord

namespace LatexToWord

/-! ## Claim C9 — serializer default: recurse and concatenate -/

/-- `"" ++ s = s` for strings. -/
lemma string_empty_append (s : String) : "" ++ s = s := by
  cases s with
  | mk d => show String.mk ([] ++ d) = String.mk d; rw [List.nil_append]

/-- Each mapped element's output occurs intact inside the
concatenation. -/
lemma strConcat_map_split (g : MjNode → String) :
    ∀ (cs : List MjNode) (c : MjNode), c ∈ cs →
      ∃ pre post, strConcat (cs.map g) = pre ++ g c ++ post := by
  intro cs
  induction cs with
  | nil => intro c hc; exact absurd hc (List.not_mem_nil c)
  | cons a as ih =>
    intro c hc
    rcases List.mem_cons.1 hc with rfl | hc'
    · exact ⟨"", strConcat (as.map g), by
        simp only [List.map_cons, strConcat, string_empty_append]⟩
    · obtain ⟨pre, post, hp⟩ := ih c hc'
      exact ⟨g a ++ pre, post, by
        simp only [List.map_cons, strConcat, hp, String.append_assoc]⟩

/-- C9: for every node kind in the upstream MathML kind set that has no
dedicated `visitX` handler, `visitNode` recurses into the children and
concatenates their emissions in order, and consequently every child's
emission appears intact inside the node's emission (no node is silently
dropped).  (Artificial kinds such as `"node"`/`"tree"`, whose JS
property lookup would hit visitor infrastructure methods rather than a
handler, are not MathML kinds and are outside the quantification.) -/
theorem C9_default_recurses :
    ∀ (f : Nat) (k : String) (cs : List MjNode), k ∈ unhandledMathmlKinds →
      visitNode (f+1) (.el k cs) = visitChildren f cs ∧
      ∀ c ∈ cs, ∃ pre post,
        visitNode (f+1) (.el k cs) = pre ++ visitNode f c ++ post := by
  intro f k cs hk
  have hdef : visitNode (f+1) (.el k cs) = visitChildren f cs := by
    simp only [unhandledMathmlKinds, List.mem_cons, List.not_mem_nil, or_false] at hk
    rcases hk with rfl | rfl | rfl | rfl | rfl | rfl | rfl | rfl | rfl | rfl | rfl |
      rfl | rfl | rfl | rfl | rfl | rfl | rfl | rfl <;> rfl
  refine ⟨hdef, fun c hc => ?_⟩
  rw [hdef]
  exact strConcat_map_split (visitNode f) cs c hc

/-- C9 witness: the default path at the concrete unhandled kind
`mpadded` with one `mi` child. -/
theorem C9_default_recurses_witness :
    visitNode 4 (.el "mpadded" [mjLeaf "mi" "x"]) = visitChildren 3 [mjLeaf "mi" "x"] ∧
    ∀ c ∈ [mjLeaf "mi" "x"], ∃ pre post,
      visitNode 4 (.el "mpadded" [mjLeaf "mi" "x"]) = pre ++ visitNode 3 c ++ post := by
  have h := C9_default_recurses 3 "mpadded" [mjLeaf "mi" "x"] (by decide)
  exact h


end LatexToWord

namespace LatexToWord

/-! ## Claim C10 — the LaTeX path builds large operators bare

`parseNext` constructs `MathSum` / `MathIntegral` only in the fixed
shape `{ children: [] }` with no limits; the reduction pass never
modifies the inside of a node, so the property is global. -/

lemma singleton_bare {n : PNode} (h : LargeOpsBare n) :
    ∀ x ∈ [n], LargeOpsBare x := by
  intro x hx
  rcases List.mem_singleton.1 hx with rfl
  exact h

lemma parse_bare (f : Nat) : ∀ l : List Char,
    (∀ x ∈ (parseNext f l).1, LargeOpsBare x) ∧
    (∀ x ∈ (parseGroup f l).1, LargeOpsBare x) ∧
    (∀ x ∈ (parseGroupLoop f l).1, LargeOpsBare x) ∧
    (∀ x ∈ (parseDegreeLoop f l).1, LargeOpsBare x) := by
  induction f with
  | zero =>
    intro l
    refine ⟨?_, ?_, ?_, ?_⟩ <;> simp [parseNext, parseGroup, parseGroupLoop, parseDegreeLoop]
  | succ f ih =>
    intro l
    have ihN : ∀ l, ∀ x ∈ (parseNext f l).1, LargeOpsBare x := fun l => (ih l).1
    have ihG : ∀ l, ∀ x ∈ (parseGroup f l).1, LargeOpsBare x := fun l => (ih l).2.1
    have ihL : ∀ l, ∀ x ∈ (parseGroupLoop f l).1, LargeOpsBare x := fun l => (ih l).2.2.1
    have ihD : ∀ l, ∀ x ∈ (parseDegreeLoop f l).1, LargeOpsBare x := fun l => (ih l).2.2.2
    refine ⟨?_, ?_, ?_, ?_⟩
    · -- parseNext
      simp only [parseNext]
      cases hsw : skipWhitespace l with
      | nil => simp
      | cons c rest =>
        dsimp only
        split_ifs with h1 h2 h3 h4 h5 h6 h7 h8 h9
        · -- \frac
          exact singleton_bare (.fraction _ _ (ihG _) (ihG _))
        · -- \sqrt : inner match on optional [
          split
          · exact singleton_bare (.radical _ _
              (by intro ds hds; rcases Option.mem_some_iff.1 hds with rfl; exact ihD _)
              (ihG _))
          · exact singleton_bare (.radical _ _ (by intro ds hds; cases hds) (ihG _))
        · exact singleton_bare .sum
        · exact singleton_bare .integral
        · exact singleton_bare (.run _)
        · exact singleton_bare (.supMarker _ (ihG _))
        · exact singleton_bare (.subMarker _ (ihG _))
        · exact ihG _
        · simp
        · exact singleton_bare (.run _)
    · -- parseGroup
      simp only [parseGroup]
      cases hsw : skipWhitespace l with
      | nil => simp
      | cons c rest =>
        split
        · simp
        · exact ihL _
        · exact ihN _
    · -- parseGroupLoop
      cases l with
      | nil => simp [parseGroupLoop]
      | cons c rest =>
        simp only [parseGroupLoop]
        split_ifs with h1
        · simp
        · intro x hx
          rcases List.mem_append.1 hx with hx' | hx'
          · exact ihN _ x hx'
          · exact ihL _ x hx'
    · -- parseDegreeLoop
      cases l with
      | nil => simp [parseDegreeLoop]
      | cons c rest =>
        simp only [parseDegreeLoop]
        split_ifs with h1
        · simp
        · intro x hx
          rcases List.mem_append.1 hx with hx' | hx'
          · exact ihN _ x hx'
          · exact ihD _ x hx'

lemma attachStep_bare (acc : List PNode) (curr : PNode)
    (hacc : ∀ x ∈ acc, LargeOpsBare x) (hc : LargeOpsBare curr) :
    ∀ x ∈ attachStep acc curr, LargeOpsBare x := by
  cases hc with
  | supMarker cs hcs =>
    cases acc with
    | nil =>
      intro x hx
      rcases List.mem_cons.1 hx with rfl | hx'
      · exact .superscript none cs (by intro y hy; cases hy) hcs
      · rcases List.mem_singleton.1 hx' with rfl
        exact .run ""
    | cons p rest =>
      intro x hx
      rcases List.mem_cons.1 hx with rfl | hx'
      · exact .superscript (some p) cs
          (by intro y hy; rcases Option.mem_some_iff.1 hy with rfl;
              exact hacc p (List.mem_cons_self p rest)) hcs
      · exact hacc x (List.mem_cons_of_mem p hx')
  | subMarker cs hcs =>
    cases acc with
    | nil =>
      intro x hx
      rcases List.mem_cons.1 hx with rfl | hx'
      · exact .subscript none cs (by intro y hy; cases hy) hcs
      · rcases List.mem_singleton.1 hx' with rfl
        exact .run ""
    | cons p rest =>
      intro x hx
      rcases List.mem_cons.1 hx with rfl | hx'
      · exact .subscript (some p) cs
          (by intro y hy; rcases Option.mem_some_iff.1 hy with rfl;
              exact hacc p (List.mem_cons_self p rest)) hcs
      · exact hacc x (List.mem_cons_of_mem p hx')
  | run s =>
    intro x hx
    rcases List.mem_cons.1 hx with rfl | hx'
    · exact .run s
    · exact hacc x hx'
  | fraction n d hn hd =>
    intro x hx
    rcases List.mem_cons.1 hx with rfl | hx'
    · exact .fraction n d hn hd
    · exact hacc x hx'
  | radical deg cs hdeg hcs =>
    intro x hx
    rcases List.mem_cons.1 hx with rfl | hx'
    · exact .radical deg cs hdeg hcs
    · exact hacc x hx'
  | sum =>
    intro x hx
    rcases List.mem_cons.1 hx with rfl | hx'
    · exact .sum
    · exact hacc x hx'
  | integral =>
    intro x hx
    rcases List.mem_cons.1 hx with rfl | hx'
    · exact .integral
    · exact hacc x hx'
  | superscript b s hb hs =>
    intro x hx
    rcases List.mem_cons.1 hx with rfl | hx'
    · exact .superscript b s hb hs
    · exact hacc x hx'
  | subscript b s hb hs =>
    intro x hx
    rcases List.mem_cons.1 hx with rfl | hx'
    · exact .subscript b s hb hs
    · exact hacc x hx'
  | subsuperscript b s1 s2 hb h1 h2 =>
    intro x hx
    rcases List.mem_cons.1 hx with rfl | hx'
    · exact .subsuperscript b s1 s2 hb h1 h2
    · exact hacc x hx'

lemma foldl_attach_bare :
    ∀ (rs acc : List PNode), (∀ x ∈ rs, LargeOpsBare x) →
      (∀ x ∈ acc, LargeOpsBare x) →
      ∀ x ∈ rs.foldl attachStep acc, LargeOpsBare x := by
  intro rs
  induction rs with
  | nil => intro acc _ hacc; simpa using hacc
  | cons r rs ih =>
    intro acc hrs hacc
    simp only [List.foldl_cons]
    exact ih (attachStep acc r)
      (fun x hx => hrs x (List.mem_cons_of_mem r hx))
      (attachStep_bare acc r hacc (hrs r (List.mem_cons_self r rs)))

lemma attachScripts_bare (rs : List PNode) (hrs : ∀ x ∈ rs, LargeOpsBare x) :
    ∀ x ∈ attachScripts rs, LargeOpsBare x := by
  intro x hx
  exact foldl_attach_bare rs [] hrs (by simp) x (List.mem_reverse.1 hx)

lemma parseLoop_bare : ∀ (f : Nat) (l : List Char),
    ∀ x ∈ parseLoop f l, LargeOpsBare x := by
  intro f
  induction f with
  | zero => intro l; simp [parseLoop]
  | succ f ih =>
    intro l
    cases l with
    | nil => simp [parseLoop]
    | cons c rest =>
      simp only [parseLoop]
      intro x hx
      rcases List.mem_append.1 hx with hx' | hx'
      · exact (parse_bare f (c :: rest)).1 x hx'
      · exact ih _ x hx'

/-- C10: for every input, every `MathSum`/`MathIntegral` anywhere in
the parser's output tree is bare — built with `children: []` and no
`subScript`/`superScript` limit arguments — and a following script
wraps the operator from the outside during the reduction pass, as
`\sum_2` (yielding `SubScript(base = Sum, sub = 2)`) shows. -/
theorem C10_large_ops_bare :
    (∀ (s : String), ∀ x ∈ parseLatexToDocx s, LargeOpsBare x) ∧
    parseLatexToDocx "\\sum_2" = [.subscript (some (.sum none none [])) [.run "2"]] := by
  refine ⟨fun s => ?_, rfl⟩
  exact attachScripts_bare _ (parseLoop_bare _ _)


end LatexToWord

namespace LatexToWord

/-! ## Claim C4 — large-operator folding on the ingestion path -/

/-- C4 (counterexample): (i) an under-decorated element whose base text
is the Greek capital sigma `Σ` (U+03A3) — a glyph the claim says
triggers folding — is *not* folded with its following sibling: the code
tests for the n-ary summation glyph `∑` (U+2211), so both siblings stay
distinct in order; (ii) for an over-only (`mover`) element (here with
base `∫`), the over child ends up as the **sub** limit of the folded
operator and the sup limit is absent, contradicting the claim that the
sup limit comes from the over child. -/
theorem C4_glyph_fold_counterexample :
    seqToComponents 20
        [.mk "munder" [.mk "mo" [] (some "Σ"), .mk "mn" [] (some "1")] none,
          .mk "mi" [] (some "x")] =
      [.run "Σ", .run "1", .run "x"] ∧
    seqToComponents 20
        [.mk "mover" [.mk "mo" [] (some "∫"), .mk "mn" [] (some "1")] none,
          .mk "mi" [] (some "x")] =
      [.integral [.run "x"] (some [.run "1"]) none] :=
  ⟨rfl, rfl⟩

/-- The sibling walk yields nothing on an empty list, at any fuel. -/
lemma seqToComponents_nil (f : Nat) : seqToComponents f [] = [] := by
  cases f <;> rfl

/-- C4 (amended): on the markup-ingestion path a decorated
(`munderover`/`munder`/`mover`) element folds with exactly the
immediately following sibling when its trimmed base text contains `∑`
(U+2211, into a `MathSum`) or `∫` (U+222B, into a `MathIntegral`); the
operand is that following sibling, the sub limit is the element's
second child and the sup limit its third child (so for `mover` the over
decoration lands in the sub slot and no sup limit is set); with neither
glyph in the base text, or with no following sibling, no folding
happens and the nodes are emitted distinct and in order.  The walk only
ever inspects the single next sibling, as these equations show. -/
theorem C4_fold_behaviour :
    ∀ (f : Nat) (node next : MmNode) (rest : List MmNode),
      (node.name = "munderover" ∨ node.name = "munder" ∨ node.name = "mover") →
      (strIncludes (decoBaseText f node) '∑' = true →
        seqToComponents (f+1) (node :: next :: rest) =
          CNode.sum (toComponents f next) (decoSubScr f node) (decoSupScr f node)
            :: seqToComponents f rest) ∧
      (strIncludes (decoBaseText f node) '∑' = false →
        strIncludes (decoBaseText f node) '∫' = true →
        seqToComponents (f+1) (node :: next :: rest) =
          CNode.integral (toComponents f next) (decoSubScr f node) (decoSupScr f node)
            :: seqToComponents f rest) ∧
      (strIncludes (decoBaseText f node) '∑' = false →
        strIncludes (decoBaseText f node) '∫' = false →
        seqToComponents (f+1) (node :: next :: rest) =
          nodeToComponents f node ++ seqToComponents f (next :: rest)) ∧
      (seqToComponents (f+1) [node] = nodeToComponents f node) := by
  intro f node next rest hname
  refine ⟨?_, ?_, ?_, ?_⟩
  · intro hsum
    simp only [seqToComponents]
    rw [if_pos hname]
    rw [show (match node.children.get? 0 with
        | some b => strTrim (getMathmlText f b)
        | none => "") = decoBaseText f node from rfl]
    rw [if_pos hsum]
    rfl
  · intro hsum hint
    simp only [seqToComponents]
    rw [if_pos hname]
    rw [show (match node.children.get? 0 with
        | some b => strTrim (getMathmlText f b)
        | none => "") = decoBaseText f node from rfl]
    rw [if_neg (by rw [hsum]; exact Bool.false_ne_true), if_pos hint]
    rfl
  · intro hsum hint
    simp only [seqToComponents]
    rw [if_pos hname]
    rw [show (match node.children.get? 0 with
        | some b => strTrim (getMathmlText f b)
        | none => "") = decoBaseText f node from rfl]
    rw [if_neg (by rw [hsum]; exact Bool.false_ne_true),
      if_neg (by rw [hint]; exact Bool.false_ne_true)]
  · simp only [seqToComponents]
    rw [if_pos hname]
    rw [seqToComponents_nil, List.append_nil]

/-- C4 witness: the `∑` fold equation applied at a concrete
`munderover` element followed by an `mi` sibling. -/
theorem C4_fold_behaviour_witness :
    seqToComponents 21
        [.mk "munderover" [.mk "mo" [] (some "∑"), .mk "mn" [] (some "1"),
          .mk "mn" [] (some "9")] none, .mk "mi" [] (some "x")] =
      [.sum [.run "x"] (some [.run "1"]) (some [.run "9"])] := by
  have h := (C4_fold_behaviour 20
      (.mk "munderover" [.mk "mo" [] (some "∑"), .mk "mn" [] (some "1"),
        .mk "mn" [] (some "9")] none)
      (.mk "mi" [] (some "x")) [] (by left; rfl)).1 (by decide)
  rw [h]
  rfl


end LatexToWord

namespace LatexToWord

/-! ## Claim C8 — `Row` flattening is semantically transparent -/

lemma string_append_empty (s : String) : s ++ "" = s := by
  cases s with
  | mk d => show String.mk (d ++ []) = String.mk d; rw [List.append_nil]

lemma strConcat_append (a b : List String) :
    strConcat (a ++ b) = strConcat a ++ strConcat b := by
  induction a with
  | nil => simp [strConcat, string_empty_append]
  | cons x xs ih => simp [strConcat, ih, String.append_assoc]

lemma catMap_append (g : α → List β) (a b : List α) :
    catMap g (a ++ b) = catMap g a ++ catMap g b := by
  induction a with
  | nil => simp [catMap]
  | cons x xs ih => simp [catMap, ih]

/-- A token leaf emits its `createRun` wrapper at any positive fuel. -/
lemma visitNode_mjLeaf (f : Nat) (k s : String) (hk : k ∈ leafKinds) :
    visitNode (f+1) (mjLeaf k s) = leafRunA (k, s) := by
  simp only [leafKinds, List.mem_cons, List.not_mem_nil, or_false] at hk
  rcases hk with rfl | rfl | rfl | rfl <;> rfl

/-- Serialization of a row-nest forest is the concatenation of its
leaves' runs, for any sufficient fuel. -/
lemma rowForestA_emit {ns : List MjNode} {ls : List (String × String)}
    (h : RowForestA ns ls) :
    ∀ f, sizeOf ns ≤ f → visitChildren f ns = strConcat (ls.map leafRunA) := by
  induction h with
  | nil => intro f _; rfl
  | leaf k s rest ls hk hrest ih =>
    intro f hf
    have hf1 : 1 ≤ f ∧ sizeOf rest ≤ f := by
      simp only [List.cons.sizeOf_spec] at hf
      omega
    obtain ⟨f', rfl⟩ : ∃ f', f = f'+1 := ⟨f-1, by omega⟩
    show visitNode (f'+1) (mjLeaf k s) ++ visitChildren (f'+1) rest = _
    rw [visitNode_mjLeaf f' k s hk, ih (f'+1) hf1.2]
    rfl
  | row cs rest ls ls' h1 h2 ih1 ih2 =>
    intro f hf
    have hfacts : sizeOf cs + 1 ≤ f ∧ sizeOf rest ≤ f := by
      simp only [List.cons.sizeOf_spec, MjNode.el.sizeOf_spec] at hf
      omega
    obtain ⟨f', rfl⟩ : ∃ f', f = f'+1 := ⟨f-1, by omega⟩
    show visitNode (f'+1) (.el "mrow" cs) ++ visitChildren (f'+1) rest = _
    have hrow : visitNode (f'+1) (.el "mrow" cs) = visitChildren f' cs := rfl
    rw [hrow, ih1 f' (by omega), ih2 (f'+1) hfacts.2, List.map_append,
      strConcat_append]

/-- The flat row of a leaf list is itself a row-nest forest. -/
lemma rowForestA_flat (ls : List (String × String))
    (hks : ∀ p ∈ ls, p.1 ∈ leafKinds) :
    RowForestA (ls.map fun p => mjLeaf p.1 p.2) ls := by
  induction ls with
  | nil => exact .nil
  | cons p ps ih =>
    have := RowForestA.leaf p.1 p.2 (ps.map fun p => mjLeaf p.1 p.2) ps
      (hks p (List.mem_cons_self p ps))
      (ih fun q hq => hks q (List.mem_cons_of_mem p hq))
    simpa using this

/-- A single row-nest tree serializes to its leaves' concatenation. -/
lemma rowTreeA_emit {t : MjNode} {ls : List (String × String)}
    (h : RowForestA [t] ls) :
    ∀ f, sizeOf t + 2 ≤ f → visitNode f t = strConcat (ls.map leafRunA) := by
  intro f hf
  have h1 : sizeOf ([t] : List MjNode) ≤ f := by
    simp only [List.cons.sizeOf_spec, List.nil.sizeOf_spec]
    omega
  have h2 := rowForestA_emit h f h1
  have h3 : visitChildren f [t] = visitNode f t ++ "" := rfl
  rw [h3, string_append_empty] at h2
  exact h2

/-- Leaf kinds of every leaf in a row-nest forest are token kinds. -/
lemma rowForestA_kinds {ns : List MjNode} {ls : List (String × String)}
    (h : RowForestA ns ls) : ∀ p ∈ ls, p.1 ∈ leafKinds := by
  induction h with
  | nil => simp
  | leaf k s rest ls hk hrest ih =>
    intro p hp
    rcases List.mem_cons.1 hp with rfl | hp'
    · exact hk
    · exact ih p hp'
  | row cs rest ls ls' h1 h2 ih1 ih2 =>
    intro p hp
    rcases List.mem_append.1 hp with hp' | hp'
    · exact ih1 p hp'
    · exact ih2 p hp'



lemma getMathmlTextList_nil (f : Nat) : getMathmlTextList f [] = "" := by
  cases f <;> rfl

lemma getMathmlText_mmLeaf (f : Nat) (k s : String) (h : k ≠ "#text") :
    getMathmlText (f+1) (mmLeaf k s) = s := by
  simp only [mmLeaf, getMathmlText]
  rw [if_neg h]
  by_cases hs : s = ""
  · subst hs
    rw [if_pos rfl, getMathmlTextList_nil]
  · rw [if_neg hs]

lemma nodeToComponents_mmLeaf (f : Nat) (k s : String) (hk : k ∈ leafKinds) :
    nodeToComponents (f+2) (mmLeaf k s) = leafCompB (k, s) := by
  have htext := getMathmlText_mmLeaf f k s
    (by simp only [leafKinds, List.mem_cons, List.not_mem_nil, or_false] at hk
        rcases hk with rfl | rfl | rfl | rfl <;> simp)
  simp only [leafKinds, List.mem_cons, List.not_mem_nil, or_false] at hk
  rcases hk with rfl | rfl | rfl | rfl <;>
  · simp only [nodeToComponents, MmNode.name, mmLeaf] at htext ⊢
    rw [if_neg (by decide), if_pos (by decide), htext]
    rfl

lemma rowForestB_comp {ns : List MmNode} {ls : List (String × String)}
    (h : RowForestB ns ls) :
    ∀ f, sizeOf ns ≤ f → seqToComponents f ns = catMap leafCompB ls := by
  induction h with
  | nil => intro f _; rw [seqToComponents_nil]; rfl
  | leaf k s rest ls hk hrest ih =>
    intro f hf
    have hfacts : 3 + sizeOf rest ≤ f := by
      simp only [List.cons.sizeOf_spec, mmLeaf, MmNode.mk.sizeOf_spec,
        List.nil.sizeOf_spec, Option.some.sizeOf_spec] at hf
      omega
    obtain ⟨g, rfl⟩ : ∃ g, f = g+3 := ⟨f-3, by omega⟩
    have hname : ¬ ((mmLeaf k s).name = "munderover" ∨ (mmLeaf k s).name = "munder" ∨
        (mmLeaf k s).name = "mover") := by
      simp only [leafKinds, List.mem_cons, List.not_mem_nil, or_false] at hk
      rcases hk with rfl | rfl | rfl | rfl <;> simp [mmLeaf, MmNode.name]
    show seqToComponents ((g+2)+1) (mmLeaf k s :: rest) = _
    simp only [seqToComponents]
    rw [if_neg hname]
    rw [nodeToComponents_mmLeaf g k s hk, ih (g+2) (by omega)]
    rfl
  | row cs rest ls ls' h1 h2 ih1 ih2 =>
    intro f hf
    have hfacts : sizeOf cs + 2 ≤ f ∧ sizeOf rest + 1 ≤ f := by
      simp only [List.cons.sizeOf_spec, MmNode.mk.sizeOf_spec,
        List.nil.sizeOf_spec, Option.none.sizeOf_spec] at hf
      omega
    obtain ⟨g, rfl⟩ : ∃ g, f = g+2 := ⟨f-2, by omega⟩
    show seqToComponents ((g+1)+1) (MmNode.mk "mrow" cs none :: rest) = _
    simp only [seqToComponents]
    rw [if_neg (by simp [MmNode.name])]
    have hrow : nodeToComponents (g+1) (MmNode.mk "mrow" cs none) =
        seqToComponents g cs := by
      simp only [nodeToComponents, MmNode.name, MmNode.children]
      rw [if_pos (by simp)]
    rw [hrow, ih1 g (by omega), ih2 (g+1) (by omega), catMap_append]

lemma rowForestB_flat (ls : List (String × String))
    (hks : ∀ p ∈ ls, p.1 ∈ leafKinds) :
    RowForestB (ls.map fun p => mmLeaf p.1 p.2) ls := by
  induction ls with
  | nil => exact .nil
  | cons p ps ih =>
    have := RowForestB.leaf p.1 p.2 (ps.map fun p => mmLeaf p.1 p.2) ps
      (hks p (List.mem_cons_self p ps))
      (ih fun q hq => hks q (List.mem_cons_of_mem p hq))
    simpa using this

lemma rowForestB_kinds {ns : List MmNode} {ls : List (String × String)}
    (h : RowForestB ns ls) : ∀ p ∈ ls, p.1 ∈ leafKinds := by
  induction h with
  | nil => simp
  | leaf k s rest ls hk hrest ih =>
    intro p hp
    rcases List.mem_cons.1 hp with rfl | hp'
    · exact hk
    · exact ih p hp'
  | row cs rest ls ls' h1 h2 ih1 ih2 =>
    intro p hp
    rcases List.mem_append.1 hp with hp' | hp'
    · exact ih1 p hp'
    · exact ih2 p hp'

lemma rowTreeB_comp {t : MmNode} {ls : List (String × String)}
    (h : RowForestB [t] ls) :
    ∀ f, sizeOf t + 4 ≤ f → toComponents f t = catMap leafCompB ls := by
  intro f hf
  cases h with
  | leaf k s rest ls hk hrest =>
    cases hrest
    obtain ⟨g, rfl⟩ : ∃ g, f = g+3 := ⟨f-3, by omega⟩
    have hname : ¬ ((mmLeaf k s).name = "math" ∨ (mmLeaf k s).name = "mrow" ∨
        (mmLeaf k s).name = "mstyle") := by
      simp only [leafKinds, List.mem_cons, List.not_mem_nil, or_false] at hk
      rcases hk with rfl | rfl | rfl | rfl <;> simp [mmLeaf, MmNode.name]
    show toComponents ((g+2)+1) (mmLeaf k s) = _
    simp only [toComponents]
    rw [if_neg hname, nodeToComponents_mmLeaf g k s hk]
    simp [catMap]
  | row cs rest ls ls' h1 h2 =>
    cases h2
    obtain ⟨g, rfl⟩ : ∃ g, f = g+1 := ⟨f-1, by omega⟩
    have hsz : sizeOf cs ≤ g := by
      simp only [MmNode.mk.sizeOf_spec, List.nil.sizeOf_spec,
        Option.none.sizeOf_spec] at hf
      omega
    show toComponents (g+1) (MmNode.mk "mrow" cs none) = _
    simp only [toComponents, MmNode.name, MmNode.children]
    rw [if_pos (by simp), rowForestB_comp h1 g hsz]
    simp



/-- C8: `Row` flattening is semantically transparent on both serializer
front ends: a tree nesting token leaves inside arbitrarily nested `Row`
(`mrow`) wrappers serializes — for any sufficient fuel, i.e. any fuel at
least the tree height, which the wrappers always supply — exactly as the
single flat `Row` over the same ordered leaves, on the OMML markup
string path (`visitNode`) and on the typed-component ingestion path
(`toComponents`). -/
theorem C8_row_flattening :
    (∀ (t : MjNode) (ls : List (String × String)) (f g : Nat),
      RowForestA [t] ls → sizeOf t + 2 ≤ f → sizeOf (flatRowA ls) + 2 ≤ g →
      visitNode f t = visitNode g (flatRowA ls)) ∧
    (∀ (t : MmNode) (ls : List (String × String)) (f g : Nat),
      RowForestB [t] ls → sizeOf t + 4 ≤ f → sizeOf (flatRowB ls) + 4 ≤ g →
      toComponents f t = toComponents g (flatRowB ls)) := by
  constructor
  · intro t ls f g h hf hg
    have h1 := rowTreeA_emit h f hf
    have hflatforest : RowForestA [flatRowA ls] (ls ++ []) :=
      .row _ _ _ _ (rowForestA_flat ls (rowForestA_kinds h)) .nil
    have h2 := rowTreeA_emit hflatforest g hg
    rw [h1, h2, List.append_nil]
  · intro t ls f g h hf hg
    have h1 := rowTreeB_comp h f hf
    have hflatforest : RowForestB [flatRowB ls] (ls ++ []) :=
      .row _ _ _ _ (rowForestB_flat ls (rowForestB_kinds h)) .nil
    have h2 := rowTreeB_comp hflatforest g hg
    rw [h1, h2, List.append_nil]

/-- C8 witness: a concrete two-leaf nest against its flat row on both
paths. -/
theorem C8_row_flattening_witness :
    visitNode 3000 (.el "mrow" [.el "mrow" [mjLeaf "mi" "x"], mjLeaf "mn" "1"]) =
      visitNode 3000 (flatRowA [("mi", "x"), ("mn", "1")]) ∧
    toComponents 3000 (.mk "mrow" [.mk "mrow" [mmLeaf "mi" "x"] none, mmLeaf "mn" "1"] none) =
      toComponents 3000 (flatRowB [("mi", "x"), ("mn", "1")]) := by
  constructor
  · have hforest : RowForestA
        [MjNode.el "mrow" [.el "mrow" [mjLeaf "mi" "x"], mjLeaf "mn" "1"]]
        (([("mi", "x")] ++ [("mn", "1")]) ++ []) :=
      .row _ _ _ _
        (.row _ _ _ _ (.leaf "mi" "x" [] [] (by decide) .nil)
          (.leaf "mn" "1" [] [] (by decide) .nil))
        .nil
    exact C8_row_flattening.1 _ _ 3000 3000 hforest (by decide) (by decide)
  · have hforest : RowForestB
        [MmNode.mk "mrow" [.mk "mrow" [mmLeaf "mi" "x"] none, mmLeaf "mn" "1"] none]
        (([("mi", "x")] ++ [("mn", "1")]) ++ []) :=
      .row _ _ _ _
        (.row _ _ _ _ (.leaf "mi" "x" [] [] (by decide) .nil)
          (.leaf "mn" "1" [] [] (by decide) .nil))
        .nil
    exact C8_row_flattening.2 _ _ 3000 3000 hforest (by decide) (by decide)


end LatexToWord

namespace LatexToWord

/-- C10 witness: the bare-operator invariant applied to the node
produced by parsing the concrete input `\sum`. -/
theorem C10_large_ops_bare_witness : LargeOpsBare (PNode.sum none none []) :=
  C10_large_ops_bare.1 "\\sum" (PNode.sum none none [])
    (by rw [show parseLatexToDocx "\\sum" = [PNode.sum none none []] from rfl]
        exact List.mem_singleton.2 rfl)

end LatexToWord
